import Mathlib

/-!
Shallow embedding of the formatter plugin source (src/Format.py) and proofs
about it.  Text is modelled as `List Char`; the external editor surface
(buffer characters, lexical scope classification) and the external formatter
are modelled as explicit function parameters.  Machine integers of the source
are plain `Int`/`Nat` (Python integers are unbounded, so no wrap-around is
involved).
-/

set_option maxHeartbeats 1000000

/-- Opening brace character (written via an escape). -/
def lbrace : Char := '\x7b'

/-- Closing brace character (written via an escape). -/
def rbrace : Char := '\x7d'

/-- Regex `\w` word character of `_VARPROG_RE` (letters, digits, underscore). -/
def isWordChar (c : Char) : Bool := c.isAlphanum || c = '_'

/-- Python `\s` whitespace characters (ASCII range), used by
`_SKIP_COMMENT_RE` (`\s*#`) and by `str.strip()`. -/
def isPySpace (c : Char) : Bool :=
  c = ' ' || c = '\t' || c = '\n' || c = '\r' || c = '\x0b' || c = '\x0c'

/-- Characters matched by `[ \t]` in `_STRIP_LEADING_SPACES_RE`. -/
def isBlank (c : Char) : Bool := c = ' ' || c = '\t'

/-- Lookup in an association-list model of a Python dict. -/
def lookupAssoc : List (List Char × List Char) → List Char → Option (List Char)
  | [], _ => none
  | kv :: rest, name => if kv.1 = name then some kv.2 else lookupAssoc rest name

/-- Model of `envs = custom_envs.copy(); envs.update(os.environ)` followed by
`envs[name]` (Format.py lines 64-65, 75-77): `dict.update` lets the process
environment overwrite entries of `custom_envs`, so the environment is
consulted first and `custom_envs` only as a fallback. -/
def envLookup (custom_envs os_environ : List (List Char × List Char)) (name : List Char) :
    Option (List Char) :=
  match lookupAssoc os_environ name with
  | some v => some v
  | none => lookupAssoc custom_envs name

/-- The `[^}]*\}` part of `_VARPROG_RE`: the characters up to the first `}`
and the text after that `}`; `none` when no `}` occurs.  The rest carries a
length bound used for termination of the scan. -/
def parseBraced : (l : List Char) →
    Option (List Char × { p : List Char // p.length ≤ l.length })
  | [] => none
  | c :: rest =>
    if c = rbrace then some ([], ⟨rest, by simp⟩)
    else
      match parseBraced rest with
      | some (inner, post) =>
        some (c :: inner, ⟨post.1, by
          have hp := post.2
          simp only [List.length_cons]
          omega⟩)
      | none => none

/-- The `\w+` part of `_VARPROG_RE` (with zero characters allowed): the
maximal run of word characters and the text after it, with a length bound on
the rest. -/
def parseWord : (l : List Char) → List Char × { p : List Char // p.length ≤ l.length }
  | [] => ([], ⟨[], by simp⟩)
  | c :: rest =>
    if isWordChar c then
      match parseWord rest with
      | (w, post) =>
        (c :: w, ⟨post.1, by
          have hp := post.2
          simp only [List.length_cons]
          omega⟩)
    else ([], ⟨c :: rest, by simp⟩)

/-- Attempt of `_VARPROG_RE = \$(\w+|\{[^}]*\})` to match right after a `$`.
Returns `(lookup name, matched text after the dollar, rest)`.  In the braced
alternative the regex group is `{...}`, and `custom_expandvars` strips the
braces before the lookup (Format.py lines 73-74), so the returned lookup name
is already the inner text. -/
def parseVarName (l : List Char) :
    Option (List Char × List Char × { p : List Char // p.length ≤ l.length }) :=
  match l with
  | [] => none
  | c :: rest =>
    if c = lbrace then
      match parseBraced rest with
      | some (inner, post) =>
        some (inner, c :: (inner ++ [rbrace]), ⟨post.1, by
          have hp := post.2
          simp only [List.length_cons]
          omega⟩)
      | none => none
    else
      match parseWord (c :: rest) with
      | (w, post) => if w.isEmpty then none else some (w, w, post)

/-- Scanning loop of `custom_expandvars` (Format.py lines 66-82).  Characters
before a match are emitted unchanged; at a `$` the regex is tried; on a
successful match with a known name the value is substituted and scanning
resumes after the matched token (`i = len(path)` before re-appending the
tail), so substituted text is never re-expanded; on an unknown name the token
is left verbatim and scanning also resumes after it (`i = j`). -/
def expandAux (f : List Char → Option (List Char)) : List Char → List Char
  | [] => []
  | c :: rest =>
    if c = '$' then
      match parseVarName rest with
      | none => c :: expandAux f rest
      | some (name, tok, post) =>
        (match f name with
         | some v => v
         | none => c :: tok) ++ expandAux f post.1
    else c :: expandAux f rest
termination_by l => l.length
decreasing_by
  · simp only [List.length_cons]; omega
  · have hp := post.2; simp only [List.length_cons]; omega
  · simp only [List.length_cons]; omega

/-- Model of `custom_expandvars(path, custom_envs)` (Format.py lines 61-82),
with the process environment passed explicitly. -/
def custom_expandvars (path : List Char)
    (custom_envs os_environ : List (List Char × List Char)) : List Char :=
  if path.contains '$' then expandAux (envLookup custom_envs os_environ) path else path

/-- Outcome of trying to read a file: the path is not a file, opening or
reading raised, or the read succeeded with a list of lines. -/
inductive ReadOutcome where
  | missing : ReadOutcome
  | readFailure : ReadOutcome
  | ok : List (List Char) → ReadOutcome

/-- Model of `_SKIP_COMMENT_RE.match(line)` with `_SKIP_COMMENT_RE = \s*#`:
true when the first non-whitespace character of the line is `#`. -/
def skipCommentMatch (l : List Char) : Bool :=
  match l.dropWhile isPySpace with
  | c :: _ => c = '#'
  | [] => false

/-- Python `str.strip()`: remove leading and trailing whitespace. -/
def pyStrip (l : List Char) : List Char :=
  ((l.dropWhile isPySpace).reverse.dropWhile isPySpace).reverse

/-- Python `' '.join(entries)`: single spaces between all entries, empty
entries included. -/
def joinSp : List (List Char) → List Char
  | [] => []
  | [a] => a
  | a :: b :: rest => a ++ ' ' :: joinSp (b :: rest)

/-- Model of `FormatfooCommand._read_stylerc` (Format.py lines 178-191).  The
file system is a function from paths to read outcomes; the expanded path is
looked up, a missing file or a raised exception yields the empty string, and
otherwise comment lines are dropped, the remaining lines stripped and joined
with single spaces. -/
def read_stylerc (fs : List Char → ReadOutcome)
    (custom_envs os_environ : List (List Char × List Char)) (path : List Char) : List Char :=
  let fullpath := custom_expandvars path custom_envs os_environ
  match fs fullpath with
  | ReadOutcome.missing => []
  | ReadOutcome.readFailure => []
  | ReadOutcome.ok fileLines =>
      joinSp ((fileLines.filter (fun l => !skipCommentMatch l)).map pyStrip)

/-- Tokenizer helper: split on spaces, dropping empty tokens, with an
accumulator of the current (reversed) token. -/
def splitSpacesAux : List Char → List Char → List (List Char)
  | [], acc => if acc.isEmpty then [] else [acc.reverse]
  | c :: rest, acc =>
    if c = ' ' then
      if acc.isEmpty then splitSpacesAux rest []
      else acc.reverse :: splitSpacesAux rest []
    else splitSpacesAux rest (c :: acc)

/-- Split an option string into its space-separated flags. -/
def splitSpaces (l : List Char) : List (List Char) := splitSpacesAux l []

/-- All flags of a list of option strings, in order. -/
def tokensOfAll : List (List Char) → List (List Char)
  | [] => []
  | e :: rest => splitSpaces e ++ tokensOfAll rest

/-- Modelled from the spec: `FormatterOptions.build_style_mode_option` is not
under src/; per the spec the resolver "starts the option list with a single
mandatory mode flag" and the result "starts with `--mode=c`" for mode `c`, so
the flag is `--mode=` followed by the mode name. -/
def build_style_mode_option (formatting_mode : List Char) : List Char :=
  ("--mode=").data ++ formatting_mode

/-- Modelled from the spec: `FormatterOptions.strip_invalid_options_string` is
not under src/; per the spec it "strips any flags the formatter considers
invalid", which is modelled as filtering the space-separated flags through a
validity predicate supplied as a parameter (`invalid` says which flags the
formatter rejects) and re-joining them with single spaces. -/
def strip_invalid_options_string (invalid : List Char → Bool) (s : List Char) : List Char :=
  joinSp ((splitSpaces s).filter (fun t => !invalid t))

/-- Model of `FormatfooCommand._join_options` (Format.py lines 193-196):
`' '.join(o for o in options_list if o)` passed through
`strip_invalid_options_string`. -/
def join_options (invalid : List Char → Bool) (options_list : List (List Char)) : List Char :=
  strip_invalid_options_string invalid (joinSp (options_list.filter (fun o => !o.isEmpty)))

/-- Resolved per-syntax settings as consumed by `_get_options`: the result of
`_get_syntax_settings` with the keys the function reads made explicit and the
remaining keys kept abstractly for the merge with the defaults. -/
structure SyntaxSettings where
  additional_options_file : Option (List Char)
  additional_options : Option (List (List Char))
  use_only_additional_options : Bool
  overrides : List Char → Option (List Char)

/-- The `additional_options` contribution of `_get_options` (Format.py lines
207-211): `' '.join(syntax_settings['additional_options'])` when the key is
present, else the empty string. -/
def additional_options_str (ss : SyntaxSettings) : List Char :=
  match ss.additional_options with
  | some l => joinSp l
  | none => []

/-- The stylerc contribution of `_get_options` (Format.py lines 202-206):
`_read_stylerc` of the configured file when the key is present, else the
empty string.  The read itself is abstracted into `stylerc_read`. -/
def stylerc_options_str (stylerc_read : List Char → List Char) (ss : SyntaxSettings) : List Char :=
  match ss.additional_options_file with
  | some p => stylerc_read p
  | none => []

/-- Model of `default_settings.update(syntax_settings)` (Format.py line 221):
syntax-settings keys win over the defaults. -/
def mergedSettings (ss : SyntaxSettings) (options_default : List Char → Option (List Char)) :
    List Char → Option (List Char) :=
  fun k => match ss.overrides k with
    | some v => some v
    | none => options_default k

/-- The defaults-derived contribution of `_get_options` (Format.py lines
218-227): `' '.join(build_style_options(merged settings, ...))`, with
`FormatterOptions.build_style_options` (not under src/) abstracted as a
function from the merged settings to a list of option strings. -/
def default_options_str (build_style_options : (List Char → Option (List Char)) → List (List Char))
    (ss : SyntaxSettings) (options_default : List Char → Option (List Char)) : List Char :=
  joinSp (build_style_options (mergedSettings ss options_default))

/-- Model of `FormatfooCommand._get_options` (Format.py lines 198-229).  The
option list starts with the mode flag; the additional options and stylerc
contributions are appended; when `use_only_additional_options` is set the
joined list is returned immediately, otherwise the defaults-derived options
are inserted at index 1 before joining. -/
def get_options (invalid : List Char → Bool)
    (build_style_options : (List Char → Option (List Char)) → List (List Char))
    (formatting_mode : List Char) (ss : SyntaxSettings)
    (options_default : List Char → Option (List Char))
    (stylerc_read : List Char → List Char) : List Char :=
  let modeOpt := build_style_mode_option formatting_mode
  if ss.use_only_additional_options then
    join_options invalid [modeOpt, additional_options_str ss, stylerc_options_str stylerc_read ss]
  else
    join_options invalid [modeOpt, default_options_str build_style_options ss options_default,
      additional_options_str ss, stylerc_options_str stylerc_read ss]

/-- Python `str.find`: index of the first occurrence, `none` for Python's
`-1`. -/
def pyFind : List Char → Char → Option Nat
  | [], _ => none
  | c :: rest, t => if c = t then some 0 else (pyFind rest t).map (fun n => n + 1)

/-- One iteration of the brace-stripping loop of `run_selection_only`
(Format.py lines 332-334): `index = formatted_code.find('{') + 1;
formatted_code = formatted_code[index:]`.  When no `{` remains, `find`
returns `-1`, the slice index is `0` and the text is unchanged. -/
def cutBrace (s : List Char) : List Char :=
  match pyFind s lbrace with
  | some idx => s.drop (idx + 1)
  | none => s

/-- The brace-stripping loop `for _ in range(indent_count)` iterated `n`
times. -/
def stripBraces : Nat → List Char → List Char
  | 0, s => s
  | n + 1, s => stripBraces n (cutBrace s)

/-- Match of `_STRIP_LEADING_SPACES_RE = [ \t]*\n([^\r\n])` at the head of
`l`: a (maximal) run of blanks, a newline, and a captured character that is
neither `\r` nor `\n`.  Returns the text from the captured character on. -/
def matchBlankNl (l : List Char) : Option (List Char) :=
  match l.dropWhile isBlank with
  | c1 :: c2 :: rest =>
    if c1 = '\n' then
      if c2 = '\r' ∨ c2 = '\n' then none else some (c2 :: rest)
    else none
  | _ => none

/-- Leftmost application of the `_STRIP_LEADING_SPACES_RE` substitution with
replacement `\1`: the matched blanks-plus-newline are deleted and the
captured character kept.  `none` when the regex does not match anywhere. -/
def subBlankNl : List Char → Option (List Char)
  | [] => none
  | c :: rest =>
    match matchBlankNl (c :: rest) with
    | some r => some r
    | none => (subBlankNl rest).map (fun r => c :: r)

/-- Model of `_STRIP_LEADING_SPACES_RE.sub(r'\1', formatted_code, 1)`
(Format.py lines 335-336): replace the first match, or leave the text
unchanged when there is none. -/
def stripLeadingSpaces (s : List Char) : List Char := (subBlankNl s).getD s

/-- Boolean list-prefix test. -/
def isPrefixB : List Char → List Char → Bool
  | [], _ => true
  | _ :: _, [] => false
  | a :: as, b :: bs => a = b && isPrefixB as bs

/-- Python `pat in s` substring test. -/
def containsSub (pat : List Char) : List Char → Bool
  | [] => isPrefixB pat []
  | c :: rest => isPrefixB pat (c :: rest) || containsSub pat rest

/-- Python `s.replace(pat, new, 1)`: replace the first occurrence of `pat`. -/
def replaceFirst : List Char → List Char → List Char → List Char
  | [], _, _ => []
  | c :: rest, pat, new =>
    if isPrefixB pat (c :: rest) then new ++ (c :: rest).drop pat.length
    else c :: replaceFirst rest pat new

/-- The string `"\n{"` searched for by the blank-line hack (Format.py line
340). -/
def nlBrace : List Char := ['\n', lbrace]

/-- Synthetic formatter input built by `run_selection_only` (Format.py lines
325-328): `text = '{' * indent_count`, then `text += '\n'` only when
`indent_count > 0`, then the region text.  Python string repetition with a
non-positive count yields the empty string, which `Int.toNat` mirrors. -/
def synthInput (indent_count : Int) (region : List Char) : List Char :=
  (List.replicate indent_count.toNat lbrace ++ (if 0 < indent_count then ['\n'] else [])) ++ region

/-- Post-processing of the formatter output by `run_selection_only`
(Format.py lines 331-342): for positive depth, strip `indent_count` braces
and then the leading-whitespace artifact; otherwise replace the first
`"\n{"` of the output by `"{"`, but only when the formatter input did not
itself contain `"\n{"`. -/
def cleanFormatted (indent_count : Int) (text formatted_code : List Char) : List Char :=
  if 0 < indent_count then
    stripLeadingSpaces (stripBraces indent_count.toNat formatted_code)
  else
    if containsSub nlBrace text then formatted_code
    else replaceFirst formatted_code nlBrace [lbrace]

/-- Text written back for one selection by `run_selection_only` (Format.py
lines 315-344), with the external formatter `lib.format` abstracted as
`fmt`. -/
def run_selection_only_output (fmt : List Char → List Char) (indent_count : Int)
    (region : List Char) : List Char :=
  let text := synthInput indent_count region
  cleanFormatted indent_count text (fmt text)

/-- Editor buffer as seen by `get_indentation_count`: `chars` models
`view.substr`, and `spanStart i = some a` models that `view.scope_name(i)`
classifies position `i` as string/comment/preprocessor with
`view.extract_scope(i).a = a`.  An extracted scope always contains the
queried position, hence `a ≤ i`. -/
structure ScanBuffer where
  chars : Nat → Char
  spanStart : Nat → Option Nat
  spanStart_le : ∀ i a, spanStart i = some a → a ≤ i

/-- The `while i > 0` scanning loop of `get_indentation_count` (Format.py
lines 297-313): inside a skipped span jump to just before its start, else
step back one position and adjust the counter on braces. -/
def countLoop (b : ScanBuffer) (i : Int) (acc : Int) : Int :=
  if h0 : 0 < i then
    match hs : b.spanStart i.toNat with
    | some a => countLoop b ((a : Int) - 1) acc
    | none =>
      countLoop b (i - 1)
        (if b.chars i.toNat = rbrace then acc - 1
         else if b.chars i.toNat = lbrace then acc + 1 else acc)
  else acc
termination_by (i + 1).toNat
decreasing_by
  · have := b.spanStart_le _ _ hs; omega
  · omega

/-- Model of `FormatfooCommand.get_indentation_count(view, start)` (Format.py
lines 295-313): run the scan from `i = start - 1` with counter `0`. -/
def get_indentation_count (b : ScanBuffer) (start : Int) : Int := countLoop b (start - 1) 0

/-- Scanning loop as the claim describes it: identical to `countLoop` except
that it keeps going while `i ≥ 0`, i.e. buffer position `0` is also
examined. -/
def specLoop (b : ScanBuffer) (i : Int) (acc : Int) : Int :=
  if h0 : 0 ≤ i then
    match hs : b.spanStart i.toNat with
    | some a => specLoop b ((a : Int) - 1) acc
    | none =>
      specLoop b (i - 1)
        (if b.chars i.toNat = rbrace then acc - 1
         else if b.chars i.toNat = lbrace then acc + 1 else acc)
  else acc
termination_by (i + 1).toNat
decreasing_by
  · have := b.spanStart_le _ _ hs; omega
  · omega

/-- The claim's `nestingDepth(buffer, start)`: signed count of unmatched
braces scanning every position from `start - 1` down to and including buffer
position `0`, with string/comment/preprocessor spans skipped atomically. -/
def nestingDepthSpec (b : ScanBuffer) (start : Int) : Int := specLoop b (start - 1) 0

/-- Buffer whose character at position 0 is an opening brace, with no
skipped spans. -/
def b0 : ScanBuffer where
  chars := fun i => if i = 0 then lbrace else 'a'
  spanStart := fun _ => none
  spanStart_le := fun _ _ h => nomatch h

/-- Buffer whose character at position 1 is an opening brace and whose
position 0 holds a letter, with no skipped spans. -/
def b1 : ScanBuffer where
  chars := fun i => if i = 1 then lbrace else 'a'
  spanStart := fun _ => none
  spanStart_le := fun _ _ h => nomatch h

/-! Helper lemmas -/

theorem count_zero_of_pyFind_none (s : List Char) (h : pyFind s lbrace = none) :
    List.count lbrace s = 0 := by
  induction s with
  | nil => rfl
  | cons c rest ih =>
    simp only [pyFind] at h
    by_cases hc : c = lbrace
    · simp [hc] at h
    · rw [if_neg hc] at h
      cases hrest : pyFind rest lbrace with
      | some i => rw [hrest] at h; cases h
      | none =>
        have hr := ih hrest
        simp [List.count_cons, hr, hc]

theorem pyFind_none_of_count_zero (s : List Char) (h : List.count lbrace s = 0) :
    pyFind s lbrace = none := by
  induction s with
  | nil => rfl
  | cons c rest ih =>
    simp only [List.count_cons] at h
    by_cases hc : c = lbrace
    · simp [hc] at h
    · have hr : List.count lbrace rest = 0 := by
        simp [hc] at h
        exact h
      simp [pyFind, hc, ih hr]

theorem cutBrace_of_count_zero (s : List Char) (h : List.count lbrace s = 0) :
    cutBrace s = s := by
  simp [cutBrace, pyFind_none_of_count_zero s h]

theorem count_cutBrace (s : List Char) (h : 0 < List.count lbrace s) :
    List.count lbrace (cutBrace s) = List.count lbrace s - 1 := by
  induction s with
  | nil => simp at h
  | cons c rest ih =>
    by_cases hc : c = lbrace
    · subst hc
      have hcb : cutBrace (lbrace :: rest) = rest := by simp [cutBrace, pyFind]
      rw [hcb]
      simp [List.count_cons]
    · cases hrest : pyFind rest lbrace with
      | none =>
        exfalso
        have h0 := count_zero_of_pyFind_none rest hrest
        simp [List.count_cons, h0, hc] at h
      | some i =>
        have h' : 0 < List.count lbrace rest := by
          rcases Nat.eq_zero_or_pos (List.count lbrace rest) with h0 | h0
          · rw [pyFind_none_of_count_zero rest h0] at hrest; cases hrest
          · exact h0
        have ihr := ih h'
        have hcut : cutBrace (c :: rest) = rest.drop (i + 1) := by
          simp [cutBrace, pyFind, hc, hrest]
        have hcutr : cutBrace rest = rest.drop (i + 1) := by
          simp [cutBrace, hrest]
        rw [hcut, ← hcutr, ihr]
        simp [List.count_cons, hc]

theorem count_stripBraces (n : Nat) (s : List Char) (h : n ≤ List.count lbrace s) :
    List.count lbrace (stripBraces n s) = List.count lbrace s - n := by
  induction n generalizing s with
  | zero => simp [stripBraces]
  | succ n ih =>
    have h0 : 0 < List.count lbrace s := by omega
    have hcut := count_cutBrace s h0
    rw [stripBraces, ih (cutBrace s) (by omega), hcut]
    omega

theorem mem_takeWhile_blank (l : List Char) (x : Char)
    (hx : x ∈ l.takeWhile isBlank) : isBlank x = true := by
  induction l with
  | nil => simp [List.takeWhile] at hx
  | cons c rest ih =>
    cases hb : isBlank c with
    | false => simp [List.takeWhile, hb] at hx
    | true =>
      simp only [List.takeWhile, hb] at hx
      rcases List.mem_cons.mp hx with h | h
      · subst h; exact hb
      · exact ih h

theorem count_matchBlankNl (l r : List Char) (h : matchBlankNl l = some r) :
    List.count lbrace l = List.count lbrace r := by
  rcases hd : l.dropWhile isBlank with _ | ⟨c1, tl⟩
  · simp [matchBlankNl, hd] at h
  · rcases tl with _ | ⟨c2, rest⟩
    · simp [matchBlankNl, hd] at h
    · simp only [matchBlankNl, hd] at h
      by_cases hc1 : c1 = '\n'
      · rw [if_pos hc1] at h
        by_cases hcr : c2 = '\r' ∨ c2 = '\n'
        · rw [if_pos hcr] at h; cases h
        · rw [if_neg hcr] at h
          injection h with h'
          subst h'
          calc List.count lbrace l
              = List.count lbrace (l.takeWhile isBlank ++ l.dropWhile isBlank) := by
                rw [List.takeWhile_append_dropWhile]
            _ = List.count lbrace (l.takeWhile isBlank)
                + List.count lbrace (l.dropWhile isBlank) := List.count_append _ _ _
            _ = List.count lbrace (c2 :: rest) := by
                have htw : List.count lbrace (l.takeWhile isBlank) = 0 := by
                  rw [List.count_eq_zero]
                  intro hmem
                  have hbl := mem_takeWhile_blank l lbrace hmem
                  simp [isBlank, lbrace] at hbl
                rw [htw, hd, hc1]
                simp [List.count_cons, lbrace]
      · rw [if_neg hc1] at h; cases h

theorem count_subBlankNl (s r : List Char) (h : subBlankNl s = some r) :
    List.count lbrace r = List.count lbrace s := by
  induction s generalizing r with
  | nil => cases h
  | cons c rest ih =>
    cases hm : matchBlankNl (c :: rest) with
    | some r0 =>
      simp only [subBlankNl, hm] at h
      injection h with h'
      subst h'
      exact (count_matchBlankNl _ _ hm).symm
    | none =>
      simp only [subBlankNl, hm] at h
      cases hs : subBlankNl rest with
      | none => rw [hs] at h; simp at h
      | some r1 =>
        rw [hs] at h
        simp only [Option.map] at h
        injection h with h'
        subst h'
        simp [List.count_cons, ih r1 hs]

theorem count_stripLeadingSpaces (s : List Char) :
    List.count lbrace (stripLeadingSpaces s) = List.count lbrace s := by
  rw [stripLeadingSpaces]
  cases h : subBlankNl s with
  | none => rfl
  | some r => simpa using count_subBlankNl s r h

/-! Claim theorems -/

/-- Claim C2: the text passed to the external formatter in
`run_selection_only` is exactly `indent_count` copies of the opening brace
followed by a newline followed by the region text when `indent_count > 0`,
and exactly the raw region text, with no synthetic braces and no added
newline, when `indent_count ≤ 0` (including strictly negative depth). -/
theorem selection_formatter_input (indent_count : Int) (region : List Char) :
    (0 < indent_count →
      synthInput indent_count region =
        List.replicate indent_count.toNat lbrace ++ '\n' :: region) ∧
    (indent_count ≤ 0 → synthInput indent_count region = region) := by
  constructor
  · intro h
    simp [synthInput, h]
  · intro h
    have ht : indent_count.toNat = 0 := by omega
    simp [synthInput, ht, show ¬ (0 < indent_count) by omega]

/-- Witness for Claim C2 at depth 2 and depth -1. -/
theorem selection_formatter_input_witness :
    synthInput 2 (['r']) = List.replicate (Int.toNat 2) lbrace ++ '\n' :: (['r']) ∧
    synthInput (-1) (['r']) = (['r']) :=
  ⟨(selection_formatter_input 2 (['r'])).1 (by decide),
   (selection_formatter_input (-1) (['r'])).2 (by decide)⟩

/-- Claim C9: the brace-stripping loop of `run_selection_only` is total and
never raises: in an iteration where the text has no remaining opening brace,
`find` returns `-1`, the slice index is `0` and the text is left unchanged,
so the loop completes safely even when the formatter output contains fewer
opening braces than the depth. -/
theorem strip_braces_loop_safe :
    (∀ s : List Char, pyFind s lbrace = none → cutBrace s = s) ∧
    (∀ (n : Nat) (s : List Char), List.count lbrace s = 0 → stripBraces n s = s) := by
  constructor
  · intro s h
    simp [cutBrace, h]
  · intro n
    induction n with
    | zero => intro s _; rfl
    | succ n ih =>
      intro s h
      rw [stripBraces, cutBrace_of_count_zero s h]
      exact ih s h

/-- Witness for Claim C9: three loop iterations on brace-free text leave it
unchanged. -/
theorem strip_braces_loop_safe_witness :
    stripBraces 3 (['a', 'b']) = (['a', 'b']) :=
  strip_braces_loop_safe.2 3 (['a', 'b']) (by decide)

/-- Claim C10: for non-positive depth (zero or strictly negative alike) the
selection pipeline formats the raw region text and applies the
blank-line-artifact removal: the first `"\n{"` of the formatter output is
replaced by `"{"` exactly when the raw region text does not contain
`"\n{"`. -/
theorem nonpositive_depth_blank_line_hack (fmt : List Char → List Char)
    (indent_count : Int) (region : List Char) (h : indent_count ≤ 0) :
    run_selection_only_output fmt indent_count region =
      (if containsSub nlBrace region then fmt region
       else replaceFirst (fmt region) nlBrace ([lbrace])) := by
  have h0 : ¬ (0 < indent_count) := by omega
  have hsyn : synthInput indent_count region = region := by
    have ht : indent_count.toNat = 0 := by omega
    simp [synthInput, ht, h0]
  simp [run_selection_only_output, cleanFormatted, hsyn, h0]

/-- Witness for Claim C10 at depth -1 with the identity formatter. -/
theorem nonpositive_depth_blank_line_hack_witness :
    run_selection_only_output (fun s => s) (-1) (['a']) = (['a']) := by
  rw [nonpositive_depth_blank_line_hack (fun s => s) (-1) (['a']) (by decide)]
  decide

/-- Claim C7: a stylerc path whose environment-expanded form does not name an
existing file, or whose open or read fails, makes `_read_stylerc` return the
empty string; the embedding is a total function, so options resolution
continues instead of aborting. -/
theorem read_stylerc_degrades (fs : List Char → ReadOutcome)
    (custom_envs os_environ : List (List Char × List Char)) (path : List Char)
    (h : fs (custom_expandvars path custom_envs os_environ) = ReadOutcome.missing ∨
         fs (custom_expandvars path custom_envs os_environ) = ReadOutcome.readFailure) :
    read_stylerc fs custom_envs os_environ path = [] := by
  rcases h with h | h <;> simp [read_stylerc, h]

/-- Witness for Claim C7 with an everywhere-missing file system. -/
theorem read_stylerc_degrades_witness :
    read_stylerc (fun _ => ReadOutcome.missing) [] [] (("p").data) = [] :=
  read_stylerc_degrades (fun _ => ReadOutcome.missing) [] [] (("p").data) (Or.inl rfl)

/-- Claim C5: when `use_only_additional_options` is true, `_get_options`
returns the joined mode flag, additional options and stylerc options
immediately, and the result does not depend on the default settings or on
the defaults-derived option builder at all. -/
theorem use_only_additional_options_alone (invalid : List Char → Bool)
    (build_style_options : (List Char → Option (List Char)) → List (List Char))
    (formatting_mode : List Char) (ss : SyntaxSettings)
    (options_default : List Char → Option (List Char))
    (stylerc_read : List Char → List Char)
    (h : ss.use_only_additional_options = true) :
    get_options invalid build_style_options formatting_mode ss options_default stylerc_read =
      join_options invalid [build_style_mode_option formatting_mode,
        additional_options_str ss, stylerc_options_str stylerc_read ss] ∧
    (∀ (build_style_options' : (List Char → Option (List Char)) → List (List Char))
      (options_default' : List Char → Option (List Char)),
      get_options invalid build_style_options' formatting_mode ss options_default' stylerc_read =
      get_options invalid build_style_options formatting_mode ss options_default stylerc_read) := by
  constructor
  · simp [get_options, h]
  · intro bso' od'
    simp [get_options, h]

/-- Witness for Claim C5 with the spec's example settings. -/
theorem use_only_additional_options_alone_witness :
    get_options (fun _ => false) (fun _ => [("--style=allman").data]) (("c").data)
        ⟨none, some [("--indent=spaces=2").data], true, fun _ => none⟩
        (fun _ => none) (fun _ => []) =
      join_options (fun _ => false)
        [build_style_mode_option (("c").data),
         additional_options_str ⟨none, some [("--indent=spaces=2").data], true, fun _ => none⟩,
         stylerc_options_str (fun _ => [])
           ⟨none, some [("--indent=spaces=2").data], true, fun _ => none⟩] :=
  (use_only_additional_options_alone (fun _ => false) (fun _ => [("--style=allman").data])
    (("c").data) ⟨none, some [("--indent=spaces=2").data], true, fun _ => none⟩
    (fun _ => none) (fun _ => []) rfl).1

/-- Claim C3: for positive depth, whenever the formatter output contains at
least `indent_count` opening braces, the cleanup loop removes exactly
`indent_count` of them (each iteration cutting up to and including the next
`{`), and the subsequent whitespace strip removes no brace, so the cleaned
text has exactly `count - indent_count` opening braces — zero braces left
over from the synthetic wrapping.  The second conjunct is the whitespace
strip itself: the run of whitespace and newline before the first content
character is removed. -/
theorem positive_depth_strips_exact_braces (indent_count : Int)
    (text formatted_code : List Char) (h0 : 0 < indent_count)
    (h1 : indent_count.toNat ≤ List.count lbrace formatted_code) :
    List.count lbrace (cleanFormatted indent_count text formatted_code)
      = List.count lbrace formatted_code - indent_count.toNat ∧
    (∀ (c : Char) (rest : List Char), c ≠ '\r' → c ≠ '\n' →
      stripLeadingSpaces ('\n' :: c :: rest) = c :: rest) := by
  constructor
  · rw [cleanFormatted, if_pos h0, count_stripLeadingSpaces, count_stripBraces _ _ h1]
  · intro c rest hc1 hc2
    have hm : matchBlankNl ('\n' :: c :: rest) = some (c :: rest) := by
      have hd : ('\n' :: c :: rest).dropWhile isBlank = '\n' :: c :: rest := by
        simp [List.dropWhile, isBlank]
      simp [matchBlankNl, hd, hc1, hc2]
    simp [stripLeadingSpaces, subBlankNl, hm]

/-- Witness for Claim C3 at depth 2 on an output with exactly the two
synthetic braces. -/
theorem positive_depth_strips_exact_braces_witness :
    List.count lbrace (cleanFormatted 2 ([]) ([lbrace, lbrace, '\n', ' ', 'a']))
      = List.count lbrace ([lbrace, lbrace, '\n', ' ', 'a']) - Int.toNat 2 :=
  (positive_depth_strips_exact_braces 2 ([]) ([lbrace, lbrace, '\n', ' ', 'a'])
    (by decide) (by decide)).1

/-- The maximal word-character run parse on an all-word-character list
consumes the whole list. -/
theorem parseWord_all_word (l : List Char) (h : ∀ c ∈ l, isWordChar c = true) :
    parseWord l = (l, ⟨[], Nat.zero_le _⟩) := by
  induction l with
  | nil => rfl
  | cons c rest ih =>
    have hc : isWordChar c = true := h c (List.mem_cons_self _ _)
    have hrest : ∀ x ∈ rest, isWordChar x = true := fun x hx => h x (List.mem_cons_of_mem _ hx)
    simp [parseWord, hc, ih hrest]

/-- The regex match right after a `$` on a nonempty all-word-character name
is the name itself, with nothing left over. -/
theorem parseVarName_word (name : List Char) (h1 : name ≠ [])
    (h2 : ∀ c ∈ name, isWordChar c = true) :
    parseVarName name = some (name, name, ⟨[], Nat.zero_le _⟩) := by
  rcases name with _ | ⟨c, rest⟩
  · cases h1 rfl
  · have hc : isWordChar c = true := h2 c (List.mem_cons_self _ _)
    have hlb : isWordChar lbrace = false := by decide
    have hcl : ¬ c = lbrace := by
      intro he
      rw [he, hlb] at hc
      cases hc
    simp [parseVarName, hcl, parseWord_all_word _ h2]

/-- Substitution case of the scan: a known all-word name right after `$` is
replaced by its value, and the value is not rescanned. -/
theorem expandAux_subst (f : List Char → Option (List Char)) (name v : List Char)
    (h1 : name ≠ []) (h2 : ∀ c ∈ name, isWordChar c = true) (hf : f name = some v) :
    expandAux f ('$' :: name) = v := by
  simp [expandAux, parseVarName_word name h1 h2, hf]

/-- Verbatim case of the scan: an unknown all-word name right after `$` is
left untouched. -/
theorem expandAux_verbatim (f : List Char → Option (List Char)) (name : List Char)
    (h1 : name ≠ []) (h2 : ∀ c ∈ name, isWordChar c = true) (hf : f name = none) :
    expandAux f ('$' :: name) = '$' :: name := by
  simp [expandAux, parseVarName_word name h1 h2, hf]

/-- A path starting with `$` contains `$`, so `custom_expandvars` runs the
scan on it. -/
theorem custom_expandvars_dollar (custom_envs os_environ : List (List Char × List Char))
    (name : List Char) :
    custom_expandvars ('$' :: name) custom_envs os_environ
      = expandAux (envLookup custom_envs os_environ) ('$' :: name) := by
  simp [custom_expandvars, List.contains]

/-- Counterexample to Claim C4: with `vars = {A: x}` and the process
environment `{A: y}`, the function substitutes the environment value `y`,
not `vars[A] = x` — `envs.update(os.environ)` gives the environment priority
over `vars`, the opposite of the claimed lookup order. -/
theorem expandvars_vars_priority_cex :
    custom_expandvars (("$A").data) [(("A").data, ("x").data)] [(("A").data, ("y").data)]
        = ("y").data ∧
    ("y").data ≠ ("x").data := by
  constructor
  · simp [custom_expandvars, expandAux, parseVarName, parseWord, envLookup, lookupAssoc,
      isWordChar, lbrace, rbrace]
  · decide

/-- Claim C4 (amended): the merged mapping gives the process environment
priority — lookup consults the environment first and falls back to `vars`
only when the name is absent from the environment; a name found in neither
mapping is left verbatim. -/
theorem expandvars_lookup_priority (custom_envs os_environ : List (List Char × List Char))
    (name v : List Char) (h1 : name ≠ []) (h2 : ∀ c ∈ name, isWordChar c = true) :
    (lookupAssoc os_environ name = some v →
      custom_expandvars ('$' :: name) custom_envs os_environ = v) ∧
    (lookupAssoc os_environ name = none → lookupAssoc custom_envs name = some v →
      custom_expandvars ('$' :: name) custom_envs os_environ = v) ∧
    (lookupAssoc os_environ name = none → lookupAssoc custom_envs name = none →
      custom_expandvars ('$' :: name) custom_envs os_environ = '$' :: name) := by
  refine ⟨?_, ?_, ?_⟩
  · intro hos
    rw [custom_expandvars_dollar]
    exact expandAux_subst _ name v h1 h2 (by simp [envLookup, hos])
  · intro hos hcu
    rw [custom_expandvars_dollar]
    exact expandAux_subst _ name v h1 h2 (by simp [envLookup, hos, hcu])
  · intro hos hcu
    rw [custom_expandvars_dollar]
    exact expandAux_verbatim _ name h1 h2 (by simp [envLookup, hos, hcu])

/-- Witness for amended Claim C4: a name absent from the environment resolves
through `vars`. -/
theorem expandvars_lookup_priority_witness :
    custom_expandvars ('$' :: ("B").data) [(("B").data, ("x").data)] [] = ("x").data :=
  (expandvars_lookup_priority [(("B").data, ("x").data)] [] (("B").data) (("x").data)
    (by decide) (by decide)).2.1 (by decide) (by decide)

/-- Claim C8: the scan of `custom_expandvars` is a total function (defined by
recursion on the length of the remaining text, which every step strictly
decreases) and it terminates with the expected literal results on a path
ending in a bare `$`, on a malformed `${` with no closing brace, and on a
self-referential variable value, whose substituted text is not re-expanded. -/
theorem expandvars_termination_examples :
    custom_expandvars (("$").data) [] [] = ("$").data ∧
    custom_expandvars ('$' :: lbrace :: ('x') :: []) [] [] = '$' :: lbrace :: ('x') :: [] ∧
    custom_expandvars (("$A").data) [(("A").data, ("$A").data)] [] = ("$A").data := by
  refine ⟨?_, ?_, ?_⟩ <;>
    simp [custom_expandvars, expandAux, parseVarName, parseWord, parseBraced, envLookup,
      lookupAssoc, isWordChar, lbrace, rbrace]

/-- The scanning loop of `get_indentation_count` returns the accumulator once
the position is at or below zero. -/
theorem countLoop_nonpos (b : ScanBuffer) (i acc : Int) (h : i ≤ 0) :
    countLoop b i acc = acc := by
  rw [countLoop.eq_def, dif_neg (by omega : ¬ (0 < i))]

/-- Span-skip step of the code's scanning loop. -/
theorem countLoop_span (b : ScanBuffer) (i acc : Int) (a : Nat) (hi : 0 < i)
    (hs : b.spanStart i.toNat = some a) :
    countLoop b i acc = countLoop b ((a : Int) - 1) acc := by
  rw [countLoop.eq_def, dif_pos hi]
  split
  · rename_i a' heq
    rw [hs] at heq
    injection heq with h'
    subst h'
    rfl
  · rename_i heq
    rw [hs] at heq
    cases heq

/-- Single-character step of the code's scanning loop. -/
theorem countLoop_scan (b : ScanBuffer) (i acc : Int) (hi : 0 < i)
    (hs : b.spanStart i.toNat = none) :
    countLoop b i acc = countLoop b (i - 1)
      (if b.chars i.toNat = rbrace then acc - 1
       else if b.chars i.toNat = lbrace then acc + 1 else acc) := by
  rw [countLoop.eq_def, dif_pos hi]
  split
  · rename_i a' heq
    rw [hs] at heq
    cases heq
  · rfl

/-- The claimed scanning loop returns the accumulator below position zero. -/
theorem specLoop_neg (b : ScanBuffer) (i acc : Int) (h : i < 0) :
    specLoop b i acc = acc := by
  rw [specLoop.eq_def, dif_neg (by omega : ¬ (0 ≤ i))]

/-- Span-skip step of the claimed scanning loop. -/
theorem specLoop_span (b : ScanBuffer) (i acc : Int) (a : Nat) (hi : 0 ≤ i)
    (hs : b.spanStart i.toNat = some a) :
    specLoop b i acc = specLoop b ((a : Int) - 1) acc := by
  rw [specLoop.eq_def, dif_pos hi]
  split
  · rename_i a' heq
    rw [hs] at heq
    injection heq with h'
    subst h'
    rfl
  · rename_i heq
    rw [hs] at heq
    cases heq

/-- Single-character step of the claimed scanning loop. -/
theorem specLoop_scan (b : ScanBuffer) (i acc : Int) (hi : 0 ≤ i)
    (hs : b.spanStart i.toNat = none) :
    specLoop b i acc = specLoop b (i - 1)
      (if b.chars i.toNat = rbrace then acc - 1
       else if b.chars i.toNat = lbrace then acc + 1 else acc) := by
  rw [specLoop.eq_def, dif_pos hi]
  split
  · rename_i a' heq
    rw [hs] at heq
    cases heq
  · rfl

/-- The two loops agree whenever position zero cannot contribute to the
count: above position zero they step identically, and at position zero the
claimed loop either skips a span ending the scan or reads a non-brace
character. -/
theorem specLoop_eq_countLoop (b : ScanBuffer)
    (hb : b.spanStart 0 ≠ none ∨ (b.chars 0 ≠ lbrace ∧ b.chars 0 ≠ rbrace)) (n : Nat) :
    ∀ (i acc : Int), (i + 1).toNat ≤ n → specLoop b i acc = countLoop b i acc := by
  induction n with
  | zero =>
    intro i acc hle
    rw [specLoop_neg b i acc (by omega), countLoop_nonpos b i acc (by omega)]
  | succ n ih =>
    intro i acc hle
    rcases lt_trichotomy i 0 with hi | hi | hi
    · rw [specLoop_neg b i acc hi, countLoop_nonpos b i acc (by omega)]
    · subst hi
      rw [countLoop_nonpos b 0 acc (by omega)]
      cases hs : b.spanStart (Int.toNat 0) with
      | some a =>
        have ha : a ≤ Int.toNat 0 := b.spanStart_le _ a hs
        have ha0 : a = 0 := by omega
        subst ha0
        rw [specLoop_span b 0 acc 0 (by omega) hs]
        rw [specLoop_neg b _ acc (by norm_num)]
      | none =>
        rcases hb with hbs | hbc
        · exact absurd hs hbs
        · rw [specLoop_scan b 0 acc (by omega) hs]
          rw [show Int.toNat 0 = 0 from rfl]
          rw [if_neg hbc.2, if_neg hbc.1]
          rw [specLoop_neg b _ acc (by norm_num)]
    · cases hs : b.spanStart i.toNat with
      | some a =>
        have ha : a ≤ i.toNat := b.spanStart_le _ a hs
        rw [specLoop_span b i acc a (by omega) hs, countLoop_span b i acc a hi hs]
        exact ih ((a : Int) - 1) acc (by omega)
      | none =>
        rw [specLoop_scan b i acc (by omega) hs, countLoop_scan b i acc hi hs]
        exact ih (i - 1) _ (by omega)

/-- Counterexample to Claim C1: on a buffer whose only scanned character sits
at position 0 and is `{`, the code returns 0 while the claimed scan down to
and including position 0 returns 1 — the loop `while i > 0` never examines
buffer position 0. -/
theorem indentation_count_cex : get_indentation_count b0 1 ≠ nestingDepthSpec b0 1 := by
  have h1 : get_indentation_count b0 1 = 0 := by simp [get_indentation_count, countLoop]
  have h2 : nestingDepthSpec b0 1 = 1 := by simp [nestingDepthSpec, specLoop, b0, lbrace, rbrace]
  rw [h1, h2]
  decide

/-- Claim C1 (amended): `get_indentation_count` computes the signed unmatched
brace count scanning from `start - 1` down to and including position 1, with
skipped spans handled atomically; it agrees with the claimed scan that also
includes position 0 precisely under the proviso that position 0 cannot
contribute — its character is not an unskipped brace. -/
theorem indentation_count_amended (b : ScanBuffer) (start : Int)
    (hb : b.spanStart 0 ≠ none ∨ (b.chars 0 ≠ lbrace ∧ b.chars 0 ≠ rbrace)) :
    get_indentation_count b start = nestingDepthSpec b start := by
  rw [get_indentation_count, nestingDepthSpec]
  exact (specLoop_eq_countLoop b hb (start - 1 + 1).toNat (start - 1) 0 (le_refl _)).symm

/-- Witness for amended Claim C1: a buffer with a brace at position 1 and a
letter at position 0. -/
theorem indentation_count_amended_witness :
    get_indentation_count b1 2 = nestingDepthSpec b1 2 :=
  indentation_count_amended b1 2 (Or.inr ⟨by decide, by decide⟩)

/-- Splitting at an explicit space separates the two sides. -/
theorem splitSpacesAux_space (a b : List Char) (acc : List Char) :
    splitSpacesAux (a ++ ' ' :: b) acc = splitSpacesAux a acc ++ splitSpacesAux b [] := by
  induction a generalizing acc with
  | nil =>
    by_cases h : acc.isEmpty
    · simp [splitSpacesAux, h]
    · simp [splitSpacesAux, h]
  | cons c a' ih =>
    by_cases hc : c = ' '
    · subst hc
      by_cases h : acc.isEmpty
      · simp [splitSpacesAux, h, ih]
      · simp [splitSpacesAux, h, ih]
    · simp [splitSpacesAux, hc, ih]

/-- Splitting a space-joined list of strings yields the flags of the
entries. -/
theorem splitSpaces_joinSp (es : List (List Char)) :
    splitSpaces (joinSp es) = tokensOfAll es := by
  induction es with
  | nil => rfl
  | cons a es ih =>
    cases es with
    | nil => simp [joinSp, tokensOfAll]
    | cons b rest =>
      calc splitSpaces (joinSp (a :: b :: rest))
          = splitSpacesAux (a ++ ' ' :: joinSp (b :: rest)) [] := rfl
        _ = splitSpacesAux a [] ++ splitSpacesAux (joinSp (b :: rest)) [] :=
            splitSpacesAux_space a (joinSp (b :: rest)) []
        _ = splitSpaces a ++ splitSpaces (joinSp (b :: rest)) := rfl
        _ = splitSpaces a ++ tokensOfAll (b :: rest) := by rw [ih]
        _ = tokensOfAll (a :: b :: rest) := rfl

/-- Every token produced by the splitter is nonempty and space-free. -/
theorem splitSpacesAux_wf (l : List Char) :
    ∀ acc : List Char, (∀ c ∈ acc, c ≠ ' ') →
      ∀ t ∈ splitSpacesAux l acc, t ≠ [] ∧ ∀ c ∈ t, c ≠ ' ' := by
  induction l with
  | nil =>
    intro acc hacc t ht
    simp only [splitSpacesAux] at ht
    by_cases h : acc.isEmpty
    · rw [if_pos h] at ht
      simp at ht
    · rw [if_neg h] at ht
      have ht' : t = acc.reverse := by simpa using ht
      subst ht'
      constructor
      · intro he
        have hnil : acc = [] := by simpa using he
        rw [hnil] at h
        simp at h
      · intro c hcmem
        exact hacc c (List.mem_reverse.mp hcmem)
  | cons c l' ih =>
    intro acc hacc t ht
    simp only [splitSpacesAux] at ht
    by_cases hc : c = ' '
    · rw [if_pos hc] at ht
      by_cases h : acc.isEmpty
      · rw [if_pos h] at ht
        exact ih [] (by simp) t ht
      · rw [if_neg h] at ht
        rcases List.mem_cons.mp ht with hh | hh
        · subst hh
          constructor
          · intro he
            have hnil : acc = [] := by simpa using he
            rw [hnil] at h
            simp at h
          · intro x hx
            exact hacc x (List.mem_reverse.mp hx)
        · exact ih [] (by simp) t hh
    · rw [if_neg hc] at ht
      refine ih (c :: acc) ?_ t ht
      intro x hx
      rcases List.mem_cons.mp hx with hh | hh
      · subst hh; exact hc
      · exact hacc x hh

/-- Tokens of the flag splitter are nonempty and space-free. -/
theorem splitSpaces_wf (l : List Char) :
    ∀ t ∈ splitSpaces l, t ≠ [] ∧ ∀ c ∈ t, c ≠ ' ' :=
  splitSpacesAux_wf l [] (by simp)

/-- On space-free input the splitter yields the accumulated single token. -/
theorem splitSpacesAux_no_space (l : List Char) (hl : ∀ c ∈ l, c ≠ ' ') :
    ∀ acc : List Char, splitSpacesAux l acc
      = if (acc.reverse ++ l).isEmpty then [] else [acc.reverse ++ l] := by
  induction l with
  | nil =>
    intro acc
    by_cases h : acc = []
    · subst h; simp [splitSpacesAux]
    · have h1 : acc.isEmpty = false := by simpa using h
      simp [splitSpacesAux, h1, h]
  | cons c l' ih =>
    intro acc
    have hc : c ≠ ' ' := hl c (List.mem_cons_self _ _)
    have hl' : ∀ x ∈ l', x ≠ ' ' := fun x hx => hl x (List.mem_cons_of_mem _ hx)
    simp only [splitSpacesAux, if_neg hc]
    rw [ih hl' (c :: acc)]
    have he : ((c :: acc).reverse ++ l') = acc.reverse ++ c :: l' := by simp
    rw [he]

/-- A nonempty space-free string is a single flag. -/
theorem splitSpaces_single (l : List Char) (h1 : l ≠ []) (h2 : ∀ c ∈ l, c ≠ ' ') :
    splitSpaces l = [l] := by
  rw [splitSpaces, splitSpacesAux_no_space l h2 []]
  simp [h1]

/-- Dropping empty entries does not change the flag list. -/
theorem tokensOfAll_filter (es : List (List Char)) :
    tokensOfAll (es.filter (fun o => !o.isEmpty)) = tokensOfAll es := by
  induction es with
  | nil => rfl
  | cons e rest ih =>
    by_cases h : e.isEmpty
    · have he : e = [] := by simpa using h
      subst he
      simp [List.filter_cons, tokensOfAll, ih, splitSpaces, splitSpacesAux]
    · simp [List.filter_cons, h, tokensOfAll, ih]

/-- The flags of a list of option strings are nonempty and space-free. -/
theorem tokensOfAll_wf (es : List (List Char)) :
    ∀ t ∈ tokensOfAll es, t ≠ [] ∧ ∀ c ∈ t, c ≠ ' ' := by
  induction es with
  | nil => intro t ht; simp [tokensOfAll] at ht
  | cons e rest ih =>
    intro t ht
    simp only [tokensOfAll] at ht
    rcases List.mem_append.mp ht with h | h
    · exact splitSpaces_wf e t h
    · exact ih t h

/-- On a list of nonempty space-free tokens, splitting after joining is the
identity. -/
theorem tokensOfAll_single (ts : List (List Char))
    (h : ∀ t ∈ ts, t ≠ [] ∧ ∀ c ∈ t, c ≠ ' ') : tokensOfAll ts = ts := by
  induction ts with
  | nil => rfl
  | cons t rest ih =>
    have ht := h t (List.mem_cons_self _ _)
    simp only [tokensOfAll]
    rw [show splitSpaces t = [t] from splitSpaces_single t ht.1 ht.2]
    rw [ih (fun x hx => h x (List.mem_cons_of_mem _ hx))]
    rfl

/-- Flags of a `_join_options` result: the flags of the entries, filtered by
the validity predicate. -/
theorem splitSpaces_join_options (invalid : List Char → Bool) (es : List (List Char)) :
    splitSpaces (join_options invalid es) = (tokensOfAll es).filter (fun t => !invalid t) := by
  have h1 : splitSpaces (joinSp (es.filter (fun o => !o.isEmpty))) = tokensOfAll es := by
    rw [splitSpaces_joinSp, tokensOfAll_filter]
  rw [join_options, strip_invalid_options_string, h1]
  have hwf : ∀ t ∈ (tokensOfAll es).filter (fun t => !invalid t),
      t ≠ [] ∧ ∀ c ∈ t, c ≠ ' ' := by
    intro t ht
    exact tokensOfAll_wf es t (List.mem_of_mem_filter ht)
  rw [splitSpaces_joinSp, tokensOfAll_single _ hwf]

/-- Any list is a prefix of itself extended. -/
theorem isPrefixB_append_self (p r : List Char) : isPrefixB p (p ++ r) = true := by
  induction p with
  | nil => rfl
  | cons c p' ih => simp [isPrefixB, ih]

/-- The mode flag is a single flag when the mode name has no space. -/
theorem splitSpaces_mode_option (formatting_mode : List Char)
    (h : ∀ c ∈ formatting_mode, c ≠ ' ') :
    splitSpaces (build_style_mode_option formatting_mode)
      = [build_style_mode_option formatting_mode] := by
  have hm : ∀ c ∈ ("--mode=").data, c ≠ ' ' := by decide
  apply splitSpaces_single
  · intro he
    simp only [build_style_mode_option] at he
    have hb := List.append_eq_nil.mp he
    exact absurd hb.1 (by decide)
  · intro c hc
    simp only [build_style_mode_option] at hc
    rcases List.mem_append.mp hc with h' | h'
    · exact hm c h'
    · exact h c h'

/-- Head and mode-flag count of a filtered token list led by a valid mode
flag followed by mode-free tokens. -/
theorem head_count_aux (invalid : List Char → Bool) (mo : List Char)
    (rest : List (List Char)) (hv : invalid mo = false)
    (hr : ∀ t ∈ rest, isPrefixB (("--mode=").data) t = false)
    (hmo : isPrefixB (("--mode=").data) mo = true) :
    ((mo :: rest).filter (fun t => !invalid t)).head? = some mo ∧
    List.countP (fun t => isPrefixB (("--mode=").data) t)
      ((mo :: rest).filter (fun t => !invalid t)) = 1 := by
  have hf : (mo :: rest).filter (fun t => !invalid t)
      = mo :: rest.filter (fun t => !invalid t) := by
    simp [List.filter_cons, hv]
  rw [hf]
  constructor
  · rfl
  · have hz : List.countP (fun t => isPrefixB (("--mode=").data) t)
        (rest.filter (fun t => !invalid t)) = 0 := by
      rw [List.countP_eq_zero]
      intro t ht
      have hfalse := hr t (List.mem_of_mem_filter ht)
      simp [hfalse]
    rw [List.countP_cons]
    simp [hmo, hz]

/-- Claim C6: the option string returned by `_get_options` contains exactly
one `--mode=` flag, and that flag is the first flag of the string — provided
the formatter accepts the mode flag, the mode name has no space, and none of
the other contributions (additional options, stylerc options,
defaults-derived options) supplies a `--mode=` flag of its own.  The
mode-flag builder and the invalid-flag strip are modelled from the spec. -/
theorem mode_flag_first_and_unique (invalid : List Char → Bool)
    (build_style_options : (List Char → Option (List Char)) → List (List Char))
    (formatting_mode : List Char) (ss : SyntaxSettings)
    (options_default : List Char → Option (List Char))
    (stylerc_read : List Char → List Char)
    (hv : invalid (build_style_mode_option formatting_mode) = false)
    (hm : ∀ c ∈ formatting_mode, c ≠ ' ')
    (ha : ∀ t ∈ splitSpaces (additional_options_str ss),
      isPrefixB (("--mode=").data) t = false)
    (hsl : ∀ t ∈ splitSpaces (stylerc_options_str stylerc_read ss),
      isPrefixB (("--mode=").data) t = false)
    (hd : ∀ t ∈ splitSpaces (default_options_str build_style_options ss options_default),
      isPrefixB (("--mode=").data) t = false) :
    (splitSpaces (get_options invalid build_style_options formatting_mode ss
        options_default stylerc_read)).head?
      = some (build_style_mode_option formatting_mode) ∧
    List.countP (fun t => isPrefixB (("--mode=").data) t)
      (splitSpaces (get_options invalid build_style_options formatting_mode ss
        options_default stylerc_read)) = 1 := by
  have hmo : isPrefixB (("--mode=").data) (build_style_mode_option formatting_mode) = true :=
    isPrefixB_append_self (("--mode=").data) formatting_mode
  rw [get_options]
  by_cases hu : ss.use_only_additional_options
  · rw [if_pos hu, splitSpaces_join_options]
    simp only [tokensOfAll]
    rw [splitSpaces_mode_option formatting_mode hm, List.singleton_append]
    refine head_count_aux invalid _ _ hv ?_ hmo
    intro t ht
    rcases List.mem_append.mp ht with h' | h'
    · exact ha t h'
    · rcases List.mem_append.mp h' with h'' | h''
      · exact hsl t h''
      · simp at h''
  · rw [if_neg hu, splitSpaces_join_options]
    simp only [tokensOfAll]
    rw [splitSpaces_mode_option formatting_mode hm, List.singleton_append]
    refine head_count_aux invalid _ _ hv ?_ hmo
    intro t ht
    rcases List.mem_append.mp ht with h' | h'
    · exact hd t h'
    · rcases List.mem_append.mp h' with h'' | h''
      · exact ha t h''
      · rcases List.mem_append.mp h'' with h3 | h3
        · exact hsl t h3
        · simp at h3

/-- Witness for Claim C6 with the spec's example mode `c`. -/
theorem mode_flag_first_and_unique_witness :
    (splitSpaces (get_options (fun _ => false) (fun _ => [("--style=allman").data])
        (("c").data) ⟨none, some [("--indent=spaces=2").data], false, fun _ => none⟩
        (fun _ => none) (fun _ => []))).head?
      = some (build_style_mode_option (("c").data)) :=
  (mode_flag_first_and_unique (fun _ => false) (fun _ => [("--style=allman").data])
    (("c").data) ⟨none, some [("--indent=spaces=2").data], false, fun _ => none⟩
    (fun _ => none) (fun _ => [])
    rfl (by decide) (by decide) (by decide) (by decide)).1
